import Mathlib

/-!
Verification of the wfo-parser core pipeline against its design notes.

The Python sources are embedded shallowly: strings become `List Char`,
pandas Series become `List (List Char)`, datetimes become a `Date` record
of numeric fields, and fallible code returns `Option` / `Except`.  Every
definition mirrors one function of `src/date_tools.py` or `src/main.py`
and keeps its name where Lean allows.
-/

namespace WfoParser

/-- Strings of the Python source are embedded as lists of characters. -/
abbrev Chars := List Char

/-- Python whitespace as `str.strip` / `str.split` / `re \s` see it, restricted
to the characters that can actually occur in this pipeline: space, tab, LF, CR,
vertical tab, form feed and no-break space (U+00A0). -/
def isPySpace (c : Char) : Bool :=
  c.toNat = 32 || c.toNat = 9 || c.toNat = 10 || c.toNat = 13 ||
  c.toNat = 11 || c.toNat = 12 || c.toNat = 160

/-- ASCII decimal digit. -/
def isDigit (c : Char) : Bool := 48 ≤ c.toNat && c.toNat ≤ 57

/-- A separator of the date regex character class `[-./]`. -/
def isSep (c : Char) : Bool := c.toNat = 46 || c.toNat = 45 || c.toNat = 47

/-- Python `s.strip(chars)`: drop the matching characters from both ends. -/
def stripWhile (p : Char → Bool) (s : Chars) : Chars :=
  ((s.dropWhile p).reverse.dropWhile p).reverse

/-- Python `s.split(sep)` for a one-character separator (keeps empty chunks,
`split` of the empty string is `[""]`). -/
def splitOnChar (c : Char) : Chars → List Chars
  | [] => [[]]
  | x :: xs =>
    if x = c then [] :: splitOnChar c xs
    else
      match splitOnChar c xs with
      | [] => [[x]]
      | h :: t => (x :: h) :: t

/-- Value of a string of decimal digits, as Python `int` reads it. -/
def parseNat (s : Chars) : Nat :=
  s.foldl (fun a c => a * 10 + (c.toNat - 48)) 0

/-- `_normalize_date_token` of `src/date_tools.py`: trim whitespace and quote
characters, keep the first whitespace-separated word, remove trailing
`,;)]` punctuation, and turn `.` and `-` separators into `/`. -/
def _normalize_date_token (s : Chars) : Chars :=
  let s := stripWhile isPySpace s
  let s := stripWhile (fun c => c.toNat = 34) s
  let s := stripWhile (fun c => c.toNat = 39) s
  let s := stripWhile isPySpace s
  let s := s.takeWhile (fun c => !(isPySpace c))
  let s := (s.reverse.dropWhile
    (fun c => c.toNat = 44 || c.toNat = 59 || c.toNat = 41 || c.toNat = 93)).reverse
  s.map (fun c => if c.toNat = 46 || c.toNat = 45 then Char.ofNat 47 else c)

/-- Full match of `_DATE_RE`, the pattern
`^\s*(\d{1,4})[-./](\d{1,2})[-./](\d{1,4})\s*$`, returning the integer values
of the three groups.  Because a digit is never a separator and never
whitespace, the backtracking regex accepts exactly the maximal-munch reading
implemented here. -/
def dateMatch (s : Chars) : Option (Nat × Nat × Nat) :=
  let s1 := s.dropWhile isPySpace
  let g1 := s1.takeWhile isDigit
  let r1 := s1.dropWhile isDigit
  if g1.length < 1 || 4 < g1.length then none else
  match r1 with
  | [] => none
  | c1 :: r2 =>
    if !(isSep c1) then none else
    let g2 := r2.takeWhile isDigit
    let r3 := r2.dropWhile isDigit
    if g2.length < 1 || 2 < g2.length then none else
    match r3 with
    | [] => none
    | c2 :: r4 =>
      if !(isSep c2) then none else
      let g3 := r4.takeWhile isDigit
      let r5 := r4.dropWhile isDigit
      if g3.length < 1 || 4 < g3.length then none else
      if r5.all isPySpace then some (parseNat g1, parseNat g2, parseNat g3)
      else none

/-- The `(a, b, c)` integer triples of the tokens that match `_DATE_RE` after
normalization: the loop body of `_infer_date_order` (its `int` conversion
never fails, the groups being digit strings). -/
def matchedTriples (tokens : List Chars) : List (Nat × Nat × Nat) :=
  tokens.filterMap (fun t => dateMatch (_normalize_date_token t))

/-- `_infer_date_order` of `src/date_tools.py`. -/
def _infer_date_order (tokens : List Chars) : String :=
  let triples := matchedTriples tokens
  let a_vals := triples.map (fun t => t.1)
  let b_vals := triples.map (fun t => t.2.1)
  if a_vals.isEmpty then "dmy"
  else if max 1 (a_vals.length / 2) ≤ (a_vals.filter (fun x => 1900 ≤ x)).length
  then "ymd"
  else if a_vals.any (fun x => 12 < x) then "dmy"
  else if b_vals.any (fun x => 12 < x) then "mdy"
  else "dmy"

/-- A calendar date, the embedding of a `pandas.Timestamp` at day resolution:
numeric year, month and day fields. -/
structure Date where
  y : Nat
  m : Nat
  d : Nat
deriving DecidableEq, Repr

/-- Chronological order on dates (`Timestamp` comparison): lexicographic on
year, month, day. -/
def dateLe (a b : Date) : Bool :=
  decide (a.y < b.y ∨ (a.y = b.y ∧ (a.m < b.m ∨ (a.m = b.m ∧ a.d ≤ b.d))))

/-- Strict chronological order on dates. -/
def dateLt (a b : Date) : Bool :=
  decide (a.y < b.y ∨ (a.y = b.y ∧ (a.m < b.m ∨ (a.m = b.m ∧ a.d < b.d))))

/-- Gregorian leap year. -/
def isLeap (y : Nat) : Bool := (y % 4 = 0 && y % 100 ≠ 0) || y % 400 = 0

/-- Days in a Gregorian month. -/
def daysInMonth (y m : Nat) : Nat :=
  if m = 2 then (if isLeap y then 29 else 28)
  else if m = 4 || m = 6 || m = 9 || m = 11 then 30
  else 31

/-- The calendar successor of a date: `Timestamp + pd.Timedelta(days=1)`. -/
def nextDay (x : Date) : Date :=
  if x.d < daysInMonth x.y x.m then ⟨x.y, x.m, x.d + 1⟩
  else if x.m < 12 then ⟨x.y, x.m + 1, 1⟩
  else ⟨x.y + 1, 1, 1⟩

/-- The overlap-repair loop of `parse_wfo_csv_text` (src/main.py lines
528-548), abstracted over the parsed rows: each row carries its parsed start
and end date, `prev` is `prev_end_dt`.  When the start is not after the
previous end it is replaced by the previous end plus one day; the end is
emitted unchanged and becomes the next `prev_end_dt`. -/
def repairRows (prev : Option Date) : List (Date × Date) → List (Date × Date)
  | [] => []
  | (s, e) :: rest =>
    let s' := match prev with
      | some pe => if dateLe s pe then nextDay pe else s
      | none => s
    (s', e) :: repairRows (some e) rest

/-- Default row used with `List.getD` when indexing rows. -/
def dummyRow : Date × Date := (⟨0, 0, 0⟩, ⟨0, 0, 0⟩)

/-- The rows of the overlap-repair example in the design notes:
`[(2020-01-01, 2020-06-30), (2020-05-01, 2020-12-31)]`. -/
def c1ExampleRows : List (Date × Date) :=
  [(⟨2020, 1, 1⟩, ⟨2020, 6, 30⟩), (⟨2020, 5, 1⟩, ⟨2020, 12, 31⟩)]

/-- Rows that are not sorted by date: the second row ends before the first
row does. -/
def c10Rows : List (Date × Date) :=
  [(⟨2020, 1, 1⟩, ⟨2020, 12, 31⟩), (⟨2020, 2, 1⟩, ⟨2020, 3, 1⟩)]

/-- The decimal digit character of `n % 10`. -/
def digitChar (n : Nat) : Char := Char.ofNat (48 + n % 10)

/-- Decimal digits of `n`, most significant first, with fuel for structural
recursion (`natDigits` supplies enough fuel for any `n`). -/
def natDigitsAux : Nat → Nat → Chars
  | 0, _ => []
  | fuel + 1, n =>
    if n < 10 then [digitChar n]
    else natDigitsAux fuel (n / 10) ++ [digitChar n]

/-- Decimal digits of `n`, most significant first. -/
def natDigits (n : Nat) : Chars := natDigitsAux (n + 1) n

/-- `n` rendered in decimal, zero-padded on the left to at least `w`
characters: C `printf` style `%0wd`, the common behaviour of `strftime`
fields and Python format specifiers such as `:02d`. -/
def pad (w n : Nat) : Chars :=
  List.replicate (w - (natDigits n).length) (Char.ofNat 48) ++ natDigits n

/-- `Timestamp.strftime` with format `%d/%m/%Y` on a date: two-digit day,
slash, two-digit month, slash, four-digit (zero-padded) year. -/
def formatDMY (x : Date) : Chars :=
  pad 2 x.d ++ Char.ofNat 47 :: (pad 2 x.m ++ Char.ofNat 47 :: pad 4 x.y)

/-- Python `int` on a decimal string restricted to the digit strings this
pipeline feeds it: fails unless the string is non-empty and all digits. -/
def parseIntOpt (s : Chars) : Option Nat :=
  if !s.isEmpty && s.all isDigit then some (parseNat s) else none

/-- Python `s.split()[0]`: the first whitespace-delimited word, failing
(IndexError) when the string holds no non-whitespace character. -/
def pyFirstWord (s : Chars) : Option Chars :=
  let w := (s.dropWhile isPySpace).takeWhile (fun c => !(isPySpace c))
  if w.isEmpty then none else some w

/-- `to_pl_date` of `parse_wfo_csv_text` (src/main.py lines 471-476): take the
first word of the rendered date, split it on `/` into day, month and year,
and emit the compact code: `1` for years at least 2000 else `0`, then the
year modulo 100, the month and the day, each zero-padded to two digits. -/
def to_pl_date (s : Chars) : Option Chars :=
  (pyFirstWord s).bind fun w =>
    match splitOnChar (Char.ofNat 47) w with
    | [ds, ms, ys] =>
      (parseIntOpt ds).bind fun d =>
        (parseIntOpt ms).bind fun m =>
          (parseIntOpt ys).bind fun y =>
            some ((if 2000 ≤ y then Char.ofNat 49 else Char.ofNat 48) ::
              (pad 2 (y % 100) ++ pad 2 m ++ pad 2 d))
    | _ => none

/-- The two decimal digits of `n` (for `n < 100`): how the specification
describes each zero-padded field of the `PYYMMDD` encoding. -/
def twoDigits (n : Nat) : Chars := [digitChar (n / 10), digitChar n]

/-- The compact `PYYMMDD` encoding exactly as the specification words it:
`P` is `1` when the calendar year is at least 2000 else `0`, `YY` the year
modulo 100 zero-padded to two digits, then the zero-padded month and day. -/
def plSpec (y m d : Nat) : Chars :=
  (if 2000 ≤ y then Char.ofNat 49 else Char.ofNat 48) ::
    (twoDigits (y % 100) ++ twoDigits m ++ twoDigits d)

/-- Line-ending normalization of `parse_wfo_to_dataframe`: every CRLF and then
every remaining CR becomes LF. -/
def normalizeNewlines : Chars → Chars
  | [] => []
  | '\r' :: '\n' :: rest => '\n' :: normalizeNewlines rest
  | '\r' :: rest => '\n' :: normalizeNewlines rest
  | c :: rest => c :: normalizeNewlines rest

/-- The non-blank lines of the raw text, in order, as `parse_wfo_to_dataframe`
builds them: normalize line endings, split on LF, keep lines with a
non-whitespace character. -/
def wfoLines (text : Chars) : List Chars :=
  (splitOnChar '\n' (normalizeNewlines text)).filter (fun l => !(l.all isPySpace))

/-- Delimiter detection of `parse_wfo_to_dataframe`, on the header line only:
tab if present, else semicolon when a semicolon but no comma occurs, else
comma. -/
def detectDelim (header : Chars) : Char :=
  if header.contains '\t' then '\t'
  else if header.contains (Char.ofNat 59) && !(header.contains (Char.ofNat 44))
  then Char.ofNat 59
  else Char.ofNat 44

/-- Field count of a line under a delimiter: delimiter occurrences plus one. -/
def fieldCount (delim : Char) (l : Chars) : Nat :=
  l.countP (fun c => c = delim) + 1

/-- Message of the failure the design notes call `EmptyInputError`. -/
def emptyMsg : String := "Input is empty."

/-- Message of the failure the design notes call `NoDataRowsError`. -/
def noDataMsg : String := "No valid table rows detected."

/-- `parse_wfo_to_dataframe` of src/main.py (lines 244-276), up to the
rectangular table it hands `pandas.read_csv`: the header line, then the run of
subsequent non-blank lines whose field count matches the header, the run
ending at the first mismatch.  The empty-input check comes first; the
resulting frame is empty, and rejected, exactly when no data row was kept. -/
def parse_wfo_to_dataframe (text : Chars) : Except String (Chars × List Chars) :=
  match wfoLines text with
  | [] => .error emptyMsg
  | header :: rest =>
    let delim := detectDelim header
    let expected := fieldCount delim header
    let rows := rest.takeWhile (fun l => fieldCount delim l == expected)
    if rows.isEmpty then .error noDataMsg else .ok (header, rows)

/-- One column of the extracted table: its (stripped) header and the raw cell
values beneath it. -/
structure Col where
  name : Chars
  values : List Chars

/-- The reserved interval column names `parse_wfo_csv_text` excludes from
candidacy (its set literal holds the two out-of-sample names twice). -/
def excludedExact : List Chars :=
  [("Begin Out-of-Sample Data Interval").toList,
   ("End Out-of-Sample Data Interval").toList,
   ("Begin In-Sample Data Interval").toList,
   ("End In-Sample Data Interval").toList]

/-- Candidate filter of `parse_wfo_csv_text`: not a reserved interval column
and not starting with `IS ` or `OOS `. -/
def isCandidateName (n : Chars) : Bool :=
  !(excludedExact.contains n) &&
  !(List.isPrefixOf (("IS ").toList) n) &&
  !(List.isPrefixOf (("OOS ").toList) n)

/-- Shallow model of `pd.to_numeric(..., errors="coerce")` succeeding on one
cell: optional surrounding whitespace and sign, then at least one digit with
at most one decimal point. -/
def isNumericStr (s : Chars) : Bool :=
  let t := stripWhile isPySpace s
  let t := match t with
    | c :: rest => if c.toNat = 43 || c.toNat = 45 then rest else c :: rest
    | [] => []
  t.any isDigit && t.all (fun c => isDigit c || c.toNat = 46) &&
    Nat.ble (t.countP (fun c => c.toNat = 46)) 1

/-- `split_strategy_and_input` of `parse_wfo_csv_text`: strip the header, turn
no-break spaces into spaces, and split on the last whitespace run — everything
before it is the strategy name, the final token the parameter name; headers
without a space cannot decompose. -/
def split_strategy_and_input (name : Chars) : Chars × Chars :=
  let s := (stripWhile isPySpace name).map
    (fun c => if c.toNat = 160 then Char.ofNat 32 else c)
  if s.isEmpty then ([], [])
  else if !(s.contains (Char.ofNat 32)) then ([], s)
  else
    let r := s.reverse
    (((r.dropWhile (fun c => !(isPySpace c))).dropWhile isPySpace).reverse,
     (r.takeWhile (fun c => !(isPySpace c))).reverse)

/-- A column enters a strategy group when it passes the candidate filter,
holds a space, has a numeric-coercible value, and decomposes into a non-empty
strategy name and a non-empty parameter name. -/
def colQualifies (c : Col) : Bool :=
  isCandidateName c.name && c.name.contains (Char.ofNat 32) &&
  c.values.any isNumericStr &&
  (let p := split_strategy_and_input c.name
   !(p.1.isEmpty) && !(p.2.isEmpty))

/-- Append a column to its strategy's group, keeping first-insertion order of
the keys: the `defaultdict(list)` of `parse_wfo_csv_text`. -/
def addToGroup (g : List (Chars × List Chars)) (key col : Chars) :
    List (Chars × List Chars) :=
  match g with
  | [] => [(key, [col])]
  | (k, cs) :: rest =>
    if k = key then (k, cs ++ [col]) :: rest
    else (k, cs) :: addToGroup rest key col

/-- The grouping loop of `parse_wfo_csv_text` over the columns in header
order. -/
def buildGroupsAux (acc : List (Chars × List Chars)) :
    List Col → List (Chars × List Chars)
  | [] => acc
  | c :: rest =>
    buildGroupsAux
      (if colQualifies c then
        addToGroup acc (split_strategy_and_input c.name).1 c.name
       else acc) rest

/-- The groups of qualifying columns, keyed by strategy name in
first-encountered order. -/
def buildGroups (cols : List Col) : List (Chars × List Chars) :=
  buildGroupsAux [] cols

/-- First-match association lookup (the empty list when the key is absent). -/
def lookupG : List (Chars × List Chars) → Chars → List Chars
  | [], _ => []
  | (k, cs) :: rest, key => if k = key then cs else lookupG rest key

/-- Python `max(..., key=len)` keeps the first maximal element: fold keeping
the current best, replaced only on a strictly larger member count. -/
def selectBestAux (best : Chars × List Chars) :
    List (Chars × List Chars) → Chars × List Chars
  | [] => best
  | x :: xs =>
    if best.2.length < x.2.length then selectBestAux x xs
    else selectBestAux best xs

/-- `max` over the groups, `none` when there is none. -/
def selectBest : List (Chars × List Chars) → Option (Chars × List Chars)
  | [] => none
  | x :: xs => some (selectBestAux x xs)

/-- Message of the failure the design notes call `NoStrategyColumnsError`. -/
def noStrategyMsg : String := "Could not find input parameter columns."

/-- The strategy-selection step of `parse_wfo_csv_text` (src/main.py lines
499-521): group the qualifying candidate columns by strategy name and pick the
largest group, the first-encountered winning ties; fail when no column
qualifies. -/
def selectStrategy (cols : List Col) : Except String (Chars × List Chars) :=
  match selectBest (buildGroups cols) with
  | none => .error noStrategyMsg
  | some best => .ok best

/-- The strategy-grouping example of the design notes: `Smc1 Len` and
`Smc1 Stop` numeric, `Smc2 Len` numeric, `Date` not decomposable. -/
def exampleCols : List Col :=
  [⟨("Smc1 Len").toList, [("10").toList]⟩,
   ⟨("Smc1 Stop").toList, [("5").toList]⟩,
   ⟨("Smc2 Len").toList, [("7").toList]⟩,
   ⟨("Date").toList, [("01/02/2021").toList]⟩]

/-- Valid calendar check and construction of a parsed date. -/
def mkValidDate (y m d : Nat) : Option Date :=
  if 1 ≤ m && m ≤ 12 && 1 ≤ d && d ≤ daysInMonth y m then some ⟨y, m, d⟩
  else none

/-- One field of a fixed-format `strptime` pattern: all digits, with length in
the given bounds. -/
def fieldOk (lo hi : Nat) (s : Chars) : Bool :=
  s.all isDigit && Nat.ble lo s.length && Nat.ble s.length hi

/-- `pd.to_datetime(..., format="%d/%m/%Y", errors="raise")` on one token: a
one-or-two-digit day and month and a four-digit year, slash-separated, naming
a valid calendar date. -/
def parseDMY (s : Chars) : Option Date :=
  match splitOnChar (Char.ofNat 47) s with
  | [f1, f2, f3] =>
    if fieldOk 1 2 f1 && fieldOk 1 2 f2 && fieldOk 4 4 f3 then
      mkValidDate (parseNat f3) (parseNat f2) (parseNat f1)
    else none
  | _ => none

/-- `pd.to_datetime` with format `%m/%d/%Y` on one token. -/
def parseMDY (s : Chars) : Option Date :=
  match splitOnChar (Char.ofNat 47) s with
  | [f1, f2, f3] =>
    if fieldOk 1 2 f1 && fieldOk 1 2 f2 && fieldOk 4 4 f3 then
      mkValidDate (parseNat f3) (parseNat f1) (parseNat f2)
    else none
  | _ => none

/-- `pd.to_datetime` with format `%Y/%m/%d` on one token. -/
def parseYMD (s : Chars) : Option Date :=
  match splitOnChar (Char.ofNat 47) s with
  | [f1, f2, f3] =>
    if fieldOk 4 4 f1 && fieldOk 1 2 f2 && fieldOk 1 2 f3 then
      mkValidDate (parseNat f1) (parseNat f2) (parseNat f3)
    else none
  | _ => none

/-- The format dispatch of `parse_date_series`: `ymd` and `mdy` select their
formats and every other value falls to the day-first branch. -/
def parseTokenAs (resolved : String) (t : Chars) : Option Date :=
  if resolved = "ymd" then parseYMD t
  else if resolved = "mdy" then parseMDY t
  else parseDMY t

/-- `parse_date_series` of `src/date_tools.py`: take each cell's first word
(an IndexError, hence failure, on a wholly blank cell), normalize, resolve the
order — running the inferrer only for `auto` — and parse every normalized
token under the resolved order, all or nothing, returning the parsed dates
together with the resolved order. -/
def parse_date_series (tokens : List Chars) (date_format : String) :
    Option (List Date × String) :=
  (tokens.mapM pyFirstWord).bind fun raw =>
    let norm := raw.map _normalize_date_token
    let resolved :=
      if date_format = "auto" then _infer_date_order norm else date_format
    (norm.mapM (parseTokenAs resolved)).map fun ds => (ds, resolved)

/-! ## Theorems -/

/-- Claim C2: if no token matches the three-numeric-component pattern after
normalization the inferred order is day-month-year; otherwise, if the number of
matching tokens whose first component is at least 1900 reaches
`max 1 (matchingCount / 2)`, the inferred order is year-month-day regardless of
any other evidence. -/
theorem claim_C2 (tokens : List Chars) :
    (matchedTriples tokens = [] → _infer_date_order tokens = "dmy") ∧
    (max 1 ((matchedTriples tokens).length / 2) ≤
        (((matchedTriples tokens).map (fun t => t.1)).filter
          (fun x => 1900 ≤ x)).length →
      _infer_date_order tokens = "ymd") := by
  constructor
  · intro h
    simp [_infer_date_order, h]
  · intro h
    have hne : ((matchedTriples tokens).map (fun t => t.1)).isEmpty = false := by
      rcases hm : matchedTriples tokens with _ | ⟨a, l⟩
      · rw [hm] at h
        simp at h
      · simp
    unfold _infer_date_order
    simp only [hne, Bool.false_eq_true, if_false]
    rw [if_pos]
    simpa using h

/-- Witness for C2: a population with no matching token infers day-month-year,
and a population dominated by year-first tokens infers year-month-day. -/
theorem claim_C2_witness :
    _infer_date_order [("hello").toList] = "dmy" ∧
    _infer_date_order [("2024/01/05").toList] = "ymd" :=
  ⟨(claim_C2 [("hello").toList]).1 (by decide),
   (claim_C2 [("2024/01/05").toList]).2 (by decide)⟩

/-- Counterexample to claim C3 as stated: the token `2020/01/01` matches the
pattern with first component `2020 > 12`, yet the inferrer resolves to
year-month-day, not day-month-year, because the year-first rule is checked
first and dominates. -/
theorem claim_C3_counterexample :
    (matchedTriples [("2020/01/01").toList]).any (fun t => 12 < t.1) = true ∧
    _infer_date_order [("2020/01/01").toList] = "ymd" ∧
    _infer_date_order [("2020/01/01").toList] ≠ "dmy" := by
  refine ⟨by decide, by decide, by decide⟩

/-- Claim C3 as amended: if some matching token's first numeric component
exceeds 12 and the year-first rule does not fire (the count of matching tokens
with first component at least 1900 is below `max 1 (matchingCount / 2)`), the
inferrer resolves to day-month-year regardless of the second components. -/
theorem claim_C3_amended (tokens : List Chars)
    (h12 : ((matchedTriples tokens).map (fun t => t.1)).any
      (fun x => 12 < x) = true)
    (hyear : (((matchedTriples tokens).map (fun t => t.1)).filter
        (fun x => 1900 ≤ x)).length <
      max 1 ((matchedTriples tokens).length / 2)) :
    _infer_date_order tokens = "dmy" := by
  have hne : ((matchedTriples tokens).map (fun t => t.1)).isEmpty = false := by
    rcases hm : matchedTriples tokens with _ | ⟨a, l⟩
    · rw [hm] at h12
      simp at h12
    · simp
  unfold _infer_date_order
  simp only [hne, Bool.false_eq_true, if_false]
  rw [if_neg, if_pos h12]
  simp only [List.length_map] at hyear ⊢
  omega

/-- Witness for the amended C3: the lone token `13/01/2020` has first component
13 > 12, no year-first signal, and infers day-month-year. -/
theorem claim_C3_amended_witness :
    _infer_date_order [("13/01/2020").toList] = "dmy" :=
  claim_C3_amended [("13/01/2020").toList] (by decide) (by decide)

lemma repairRows_length (prev : Option Date) (rows : List (Date × Date)) :
    (repairRows prev rows).length = rows.length := by
  induction rows generalizing prev with
  | nil => rfl
  | cons r rest ih =>
    obtain ⟨s, e⟩ := r
    simp [repairRows, ih]

lemma repairRows_snd (prev : Option Date) (rows : List (Date × Date)) (j : Nat) :
    ((repairRows prev rows).getD j dummyRow).2 = (rows.getD j dummyRow).2 := by
  induction rows generalizing prev j with
  | nil => rfl
  | cons r rest ih =>
    obtain ⟨s, e⟩ := r
    cases j with
    | zero => rfl
    | succ k => simpa [repairRows] using ih (some e) k

lemma repairRows_head (rows : List (Date × Date)) :
    (repairRows none rows).getD 0 dummyRow = rows.getD 0 dummyRow := by
  cases rows with
  | nil => rfl
  | cons r rest => rfl

lemma repairRows_start (prev : Option Date) (rows : List (Date × Date))
    (i : Nat) (h : i + 1 < rows.length) :
    ((repairRows prev rows).getD (i + 1) dummyRow).1 =
      (if dateLe ((rows.getD (i + 1) dummyRow).1) ((rows.getD i dummyRow).2)
       then nextDay ((rows.getD i dummyRow).2)
       else (rows.getD (i + 1) dummyRow).1) := by
  induction rows generalizing prev i with
  | nil => simp at h
  | cons r rest ih =>
    obtain ⟨s, e⟩ := r
    cases i with
    | zero =>
      cases rest with
      | nil => simp at h
      | cons r1 rest' => rfl
    | succ k =>
      have hk : k + 1 < rest.length := by
        simpa using Nat.lt_of_succ_lt_succ h
      simpa [repairRows] using ih (some e) k hk

lemma dateLt_nextDay (x : Date) : dateLt x (nextDay x) = true := by
  obtain ⟨y, m, d⟩ := x
  unfold nextDay dateLt
  split
  · simp only [decide_eq_true_eq]
    exact Or.inr ⟨trivial, Or.inr ⟨trivial, Nat.lt_succ_self d⟩⟩
  · split
    · simp only [decide_eq_true_eq]
      exact Or.inr ⟨trivial, Or.inl (Nat.lt_succ_self m)⟩
    · simp only [decide_eq_true_eq]
      exact Or.inl (Nat.lt_succ_self y)

lemma dateLt_of_not_dateLe (a b : Date) (h : dateLe a b = false) :
    dateLt b a = true := by
  simp only [dateLe, decide_eq_false_iff_not] at h
  simp only [dateLt, decide_eq_true_eq]
  omega

/-- Claim C1: after the overlap-repair pass over rows in their original order,
the emitted start of block `i + 1` is strictly after the original end of block
`i`; the start is replaced by the previous end plus one day exactly when the
original start is not after the previous end; ends are never modified; the
previous end carried forward is the original, unshifted end (visible in the
adjustment formula, which reads the original end of row `i`); the first block
is emitted as parsed and the pass keeps the number of rows. -/
theorem claim_C1 (rows : List (Date × Date)) (i : Nat)
    (h : i + 1 < rows.length) :
    ((repairRows none rows).getD (i + 1) dummyRow).1 =
      (if dateLe ((rows.getD (i + 1) dummyRow).1) ((rows.getD i dummyRow).2)
       then nextDay ((rows.getD i dummyRow).2)
       else (rows.getD (i + 1) dummyRow).1) ∧
    dateLt ((rows.getD i dummyRow).2)
      (((repairRows none rows).getD (i + 1) dummyRow).1) = true ∧
    (∀ j : Nat, ((repairRows none rows).getD j dummyRow).2 =
      (rows.getD j dummyRow).2) ∧
    (repairRows none rows).length = rows.length ∧
    (repairRows none rows).getD 0 dummyRow = rows.getD 0 dummyRow := by
  have hstart := repairRows_start none rows i h
  refine ⟨hstart, ?_, fun j => repairRows_snd none rows j,
    repairRows_length none rows, repairRows_head rows⟩
  rw [hstart]
  by_cases hle :
      dateLe ((rows.getD (i + 1) dummyRow).1) ((rows.getD i dummyRow).2) = true
  · rw [if_pos hle]
    exact dateLt_nextDay _
  · rw [if_neg hle]
    exact dateLt_of_not_dateLe _ _ (Bool.eq_false_iff.mpr hle)

/-- Witness for C1 at the design notes' own overlap example: the second row's
start `2020-05-01` overlaps the first row's end `2020-06-30` and is repaired to
`2020-07-01`, strictly after it, while its end stays `2020-12-31`. -/
theorem claim_C1_witness :
    ((repairRows none c1ExampleRows).getD 1 dummyRow).1 = ⟨2020, 7, 1⟩ ∧
    dateLt ((c1ExampleRows.getD 0 dummyRow).2)
      (((repairRows none c1ExampleRows).getD 1 dummyRow).1) = true ∧
    ((repairRows none c1ExampleRows).getD 1 dummyRow).2 = ⟨2020, 12, 31⟩ :=
  ⟨((claim_C1 c1ExampleRows 0 (by decide)).1).trans (by decide),
   (claim_C1 c1ExampleRows 0 (by decide)).2.1,
   ((claim_C1 c1ExampleRows 0 (by decide)).2.2.1 1).trans (by decide)⟩

/-- Claim C10: on the unsorted rows `c10Rows` (the second row ends before the
first row does) the overlap repair moves the second row's start past that
row's own end — the emitted block runs from 2021-01-01 to 2020-03-01 — so the
encoded start boundary `1210101` is strictly greater than the encoded end
boundary `1200301` and no date code satisfies the block's inclusive guard. -/
theorem claim_C10 :
    dateLt ((c10Rows.getD 1 dummyRow).2) ((c10Rows.getD 0 dummyRow).2) = true ∧
    dateLt (((repairRows none c10Rows).getD 1 dummyRow).2)
      (((repairRows none c10Rows).getD 1 dummyRow).1) = true ∧
    to_pl_date (formatDMY (((repairRows none c10Rows).getD 1 dummyRow).1)) =
      some (("1210101").toList) ∧
    to_pl_date (formatDMY (((repairRows none c10Rows).getD 1 dummyRow).2)) =
      some (("1200301").toList) ∧
    parseNat (("1200301").toList) < parseNat (("1210101").toList) ∧
    (∀ n : Nat,
      n < parseNat (("1210101").toList) ∨ parseNat (("1200301").toList) < n) := by
  refine ⟨by decide, by decide, by decide, by decide, by decide, ?_⟩
  intro n
  have h1 : parseNat (("1210101").toList) = 1210101 := by decide
  have h2 : parseNat (("1200301").toList) = 1200301 := by decide
  rw [h1, h2]
  omega

lemma digitChar_toNat (n : Nat) : (digitChar n).toNat = 48 + n % 10 := by
  have h : ∀ k, k < 10 → (Char.ofNat (48 + k)).toNat = 48 + k := by decide
  exact h (n % 10) (Nat.mod_lt n (by omega))

lemma isDigit_digitChar (n : Nat) : isDigit (digitChar n) = true := by
  simp only [isDigit, digitChar_toNat, Bool.and_eq_true, decide_eq_true_eq]
  omega

lemma natDigitsAux_all_digit (fuel n : Nat) :
    ∀ c ∈ natDigitsAux fuel n, isDigit c = true := by
  induction fuel generalizing n with
  | zero => simp [natDigitsAux]
  | succ f ih =>
    intro c hc
    unfold natDigitsAux at hc
    split at hc
    · simp only [List.mem_singleton] at hc
      exact hc ▸ isDigit_digitChar n
    · rcases List.mem_append.mp hc with h | h
      · exact ih (n / 10) c h
      · simp only [List.mem_singleton] at h
        exact h ▸ isDigit_digitChar n

lemma natDigits_all_digit (n : Nat) : ∀ c ∈ natDigits n, isDigit c = true :=
  natDigitsAux_all_digit (n + 1) n

lemma natDigitsAux_ne_nil (fuel n : Nat) (h : 1 ≤ fuel) :
    natDigitsAux fuel n ≠ [] := by
  cases fuel with
  | zero => omega
  | succ f =>
    unfold natDigitsAux
    split
    · simp
    · simp

lemma natDigitsAux_foldl (fuel : Nat) :
    ∀ n, n < 10 ^ fuel → ∀ a,
      (natDigitsAux fuel n).foldl (fun a c => a * 10 + (c.toNat - 48)) a =
        a * 10 ^ (natDigitsAux fuel n).length + n := by
  induction fuel with
  | zero =>
    intro n hn a
    interval_cases n
    simp [natDigitsAux]
  | succ f ih =>
    intro n hn a
    unfold natDigitsAux
    split
    · simp only [List.foldl_cons, List.foldl_nil, List.length_singleton,
        pow_one, digitChar_toNat]
      omega
    · rename_i h10
      have hdiv : n / 10 < 10 ^ f := by
        rw [Nat.div_lt_iff_lt_mul (by omega)]
        calc n < 10 ^ (f + 1) := hn
        _ = 10 ^ f * 10 := by ring
      rw [List.foldl_append, List.length_append, ih (n / 10) hdiv a]
      simp only [List.foldl_cons, List.foldl_nil, List.length_singleton,
        digitChar_toNat]
      have hmod := Nat.div_add_mod n 10
      have hpow : a * 10 ^ ((natDigitsAux f (n / 10)).length + 1) =
          a * 10 ^ (natDigitsAux f (n / 10)).length * 10 := by ring
      rw [hpow]
      omega

lemma parseNat_natDigits (n : Nat) : parseNat (natDigits n) = n := by
  have hpow : n < 10 ^ (n + 1) := by
    calc n < 10 ^ n := Nat.lt_pow_self (by omega) n
    _ ≤ 10 ^ (n + 1) := Nat.pow_le_pow_right (by omega) (Nat.le_succ n)
  have h := natDigitsAux_foldl (n + 1) n hpow 0
  simpa [parseNat, natDigits] using h

lemma foldl_zero_chars (k : Nat) :
    (List.replicate k (Char.ofNat 48)).foldl
      (fun a c => a * 10 + (c.toNat - 48)) 0 = 0 := by
  induction k with
  | zero => rfl
  | succ j ih =>
    rw [List.replicate_succ]
    simpa using ih

lemma parseNat_pad (w n : Nat) : parseNat (pad w n) = n := by
  unfold parseNat pad
  rw [List.foldl_append, foldl_zero_chars]
  exact parseNat_natDigits n

lemma pad_all_digit (w n : Nat) : ∀ c ∈ pad w n, isDigit c = true := by
  intro c hc
  unfold pad at hc
  rcases List.mem_append.mp hc with h | h
  · have := List.eq_of_mem_replicate h
    subst this
    decide
  · exact natDigits_all_digit n c h

lemma pad_ne_nil (w n : Nat) : pad w n ≠ [] := by
  unfold pad
  intro h
  rcases List.append_eq_nil.mp h with ⟨-, h2⟩
  exact natDigitsAux_ne_nil (n + 1) n (by omega) h2

lemma parseIntOpt_pad (w n : Nat) : parseIntOpt (pad w n) = some n := by
  unfold parseIntOpt
  have h1 : (pad w n).isEmpty = false := by
    cases hp : pad w n with
    | nil => exact absurd hp (pad_ne_nil w n)
    | cons a l => rfl
  rw [if_pos, parseNat_pad]
  rw [h1]
  simp only [Bool.not_false, Bool.true_and, List.all_eq_true]
  exact pad_all_digit w n

lemma splitOnChar_no_sep (c : Char) (s : Chars) (h : ∀ x ∈ s, x ≠ c) :
    splitOnChar c s = [s] := by
  induction s with
  | nil => rfl
  | cons a l ih =>
    have ha : a ≠ c := h a (List.mem_cons_self a l)
    have hl : ∀ x ∈ l, x ≠ c := fun x hx => h x (List.mem_cons_of_mem a hx)
    simp only [splitOnChar, if_neg ha, ih hl]

lemma splitOnChar_sep (c : Char) (s t : Chars) (h : ∀ x ∈ s, x ≠ c) :
    splitOnChar c (s ++ c :: t) = s :: splitOnChar c t := by
  induction s with
  | nil => simp [splitOnChar]
  | cons a l ih =>
    have ha : a ≠ c := h a (List.mem_cons_self a l)
    have hl : ∀ x ∈ l, x ≠ c := fun x hx => h x (List.mem_cons_of_mem a hx)
    have hs : splitOnChar c (l ++ c :: t) = l :: splitOnChar c t := ih hl
    simp only [List.cons_append, splitOnChar, if_neg ha]
    rw [List.append_eq, hs]

lemma isDigit_ne_slash (c : Char) (h : isDigit c = true) : c ≠ Char.ofNat 47 := by
  intro he
  subst he
  simp [isDigit] at h

lemma isPySpace_of_digit (c : Char) (h : isDigit c = true) :
    isPySpace c = false := by
  simp only [isDigit, Bool.and_eq_true, decide_eq_true_eq] at h
  simp only [isPySpace, Bool.or_eq_false_iff, decide_eq_false_iff_not]
  omega

lemma takeWhile_eq_self_of (p : Char → Bool) (s : Chars)
    (h : ∀ c ∈ s, p c = true) : s.takeWhile p = s := by
  induction s with
  | nil => rfl
  | cons a l ih =>
    rw [List.takeWhile_cons, if_pos (h a (List.mem_cons_self a l))]
    rw [ih (fun c hc => h c (List.mem_cons_of_mem a hc))]

lemma pyFirstWord_nonspace (s : Chars) (hne : s ≠ [])
    (h : ∀ c ∈ s, isPySpace c = false) : pyFirstWord s = some s := by
  unfold pyFirstWord
  have hdrop : s.dropWhile isPySpace = s := by
    cases s with
    | nil => rfl
    | cons a l =>
      rw [List.dropWhile_cons, if_neg]
      rw [h a (List.mem_cons_self a l)]
      simp
  have htake : s.takeWhile (fun c => !(isPySpace c)) = s :=
    takeWhile_eq_self_of _ s (fun c hc => by rw [h c hc]; rfl)
  rw [hdrop, htake]
  cases s with
  | nil => exact absurd rfl hne
  | cons a l => rfl

lemma formatDMY_no_space (x : Date) :
    ∀ c ∈ formatDMY x, isPySpace c = false := by
  intro c hc
  unfold formatDMY at hc
  have hslash : isPySpace (Char.ofNat 47) = false := by decide
  rcases List.mem_append.mp hc with h | h
  · exact isPySpace_of_digit c (pad_all_digit 2 x.d c h)
  · rcases List.mem_cons.mp h with h | h
    · exact h ▸ hslash
    · rcases List.mem_append.mp h with h | h
      · exact isPySpace_of_digit c (pad_all_digit 2 x.m c h)
      · rcases List.mem_cons.mp h with h | h
        · exact h ▸ hslash
        · exact isPySpace_of_digit c (pad_all_digit 4 x.y c h)

lemma pad_no_slash (w n : Nat) : ∀ x ∈ pad w n, x ≠ Char.ofNat 47 :=
  fun x hx => isDigit_ne_slash x (pad_all_digit w n x hx)

lemma splitOnChar_formatDMY (x : Date) :
    splitOnChar (Char.ofNat 47) (formatDMY x) = [pad 2 x.d, pad 2 x.m, pad 4 x.y] := by
  unfold formatDMY
  rw [splitOnChar_sep _ _ _ (pad_no_slash 2 x.d),
    splitOnChar_sep _ _ _ (pad_no_slash 2 x.m),
    splitOnChar_no_sep _ _ (pad_no_slash 4 x.y)]

lemma natDigitsAux_small (fuel n : Nat) (hf : 1 ≤ fuel) (hn : n < 10) :
    natDigitsAux fuel n = [digitChar n] := by
  cases fuel with
  | zero => omega
  | succ f =>
    unfold natDigitsAux
    rw [if_pos hn]

lemma pad_two_eq_twoDigits (n : Nat) (h : n < 100) : pad 2 n = twoDigits n := by
  by_cases h10 : n < 10
  · have hd : natDigits n = [digitChar n] :=
      natDigitsAux_small (n + 1) n (by omega) h10
    have hq : n / 10 = 0 := Nat.div_eq_of_lt h10
    unfold pad twoDigits
    rw [hd, hq]
    have : digitChar 0 = Char.ofNat 48 := by decide
    simp [this, List.replicate]
  · have hd : natDigits n = [digitChar (n / 10), digitChar n] := by
      unfold natDigits natDigitsAux
      rw [if_neg h10]
      rw [natDigitsAux_small n (n / 10) (by omega) (by omega)]
      rfl
    unfold pad twoDigits
    rw [hd]
    simp [List.replicate]

/-- Claim C4: for every calendar date the Schedule Code Generator's compact
encoding (the composition of `strftime` day-first rendering with
`to_pl_date`) is the seven-character string `PYYMMDD`: `P` is `1` when the
year is at least 2000 else `0`, then the year modulo 100, the month and the
day, each as two zero-padded decimal digits; in particular 2024-03-05 encodes
to `1240305` and 1998-03-05 to `0980305`. -/
theorem claim_C4 :
    (∀ y m d : Nat, 1 ≤ m → m ≤ 12 → 1 ≤ d → d ≤ 31 →
      to_pl_date (formatDMY ⟨y, m, d⟩) = some (plSpec y m d)) ∧
    to_pl_date (formatDMY ⟨2024, 3, 5⟩) = some (("1240305").toList) ∧
    to_pl_date (formatDMY ⟨1998, 3, 5⟩) = some (("0980305").toList) := by
  refine ⟨?_, by decide, by decide⟩
  intro y m d hm1 hm2 hd1 hd2
  have hne : formatDMY ⟨y, m, d⟩ ≠ [] := by
    unfold formatDMY
    intro h
    rcases List.append_eq_nil.mp h with ⟨h1, -⟩
    exact pad_ne_nil 2 d h1
  unfold to_pl_date
  rw [pyFirstWord_nonspace _ hne (formatDMY_no_space _), Option.some_bind,
    splitOnChar_formatDMY]
  simp only [parseIntOpt_pad, Option.some_bind]
  unfold plSpec
  rw [pad_two_eq_twoDigits (y % 100) (Nat.mod_lt y (by omega)),
    pad_two_eq_twoDigits m (by omega), pad_two_eq_twoDigits d (by omega)]

/-- Witness for C4 at 2024-03-05, the design notes' round-trip example. -/
theorem claim_C4_witness :
    to_pl_date (formatDMY ⟨2024, 3, 5⟩) = some (plSpec 2024 3 5) :=
  claim_C4.1 2024 3 5 (by decide) (by decide) (by decide) (by decide)

lemma mem_takeWhile_eq_true {α : Type} (p : α → Bool) :
    ∀ (l : List α) (x : α), x ∈ l.takeWhile p → p x = true := by
  intro l
  induction l with
  | nil => simp
  | cons a t ih =>
    intro x hx
    rw [List.takeWhile_cons] at hx
    by_cases hpa : p a = true
    · rw [if_pos hpa] at hx
      rcases List.mem_cons.mp hx with h | h
      · exact h ▸ hpa
      · exact ih x h
    · rw [if_neg hpa] at hx
      simp at hx

lemma dropWhile_cons_false {α : Type} (p : α → Bool) :
    ∀ (l : List α) (x : α) (xs : List α), l.dropWhile p = x :: xs → p x = false := by
  intro l
  induction l with
  | nil =>
    intro x xs h
    simp at h
  | cons a t ih =>
    intro x xs h
    rw [List.dropWhile_cons] at h
    by_cases hpa : p a = true
    · rw [if_pos hpa] at h
      exact ih x xs h
    · rw [if_neg hpa] at h
      have hax : a = x := (List.cons.inj h).1
      subst hax
      exact Bool.eq_false_iff.mpr hpa

/-- Claim C5: when the Tabular Extractor succeeds, the delimiter is chosen
from the header line alone — tab if the header holds a tab, else semicolon
when it holds a semicolon and no comma, else comma — and the accepted data
rows are exactly the maximal prefix of the subsequent non-blank lines whose
field count equals the header's: every accepted row matches the header's
field count, and the discarded remainder, if any, begins with a line whose
field count differs (the first mismatch ends the scan for good, even if a
later line matches again). -/
theorem claim_C5 (text header : Chars) (rows : List Chars)
    (h : parse_wfo_to_dataframe text = Except.ok (header, rows)) :
    (Char.ofNat 9 ∈ header → detectDelim header = Char.ofNat 9) ∧
    (Char.ofNat 9 ∉ header → Char.ofNat 59 ∈ header → Char.ofNat 44 ∉ header →
      detectDelim header = Char.ofNat 59) ∧
    (Char.ofNat 9 ∉ header →
      ¬(Char.ofNat 59 ∈ header ∧ Char.ofNat 44 ∉ header) →
      detectDelim header = Char.ofNat 44) ∧
    ∃ rest discarded : List Chars,
      wfoLines text = header :: rest ∧
      rest = rows ++ discarded ∧
      rows ≠ [] ∧
      (∀ l ∈ rows,
        fieldCount (detectDelim header) l = fieldCount (detectDelim header) header) ∧
      (∀ l ls, discarded = l :: ls →
        fieldCount (detectDelim header) l ≠ fieldCount (detectDelim header) header) := by
  refine ⟨fun ht => by simp [detectDelim, ht],
    fun ht hs hc => by simp [detectDelim, ht, hs, hc],
    fun ht hsc => by simp [detectDelim, ht, hsc], ?_⟩
  unfold parse_wfo_to_dataframe at h
  rcases hl : wfoLines text with _ | ⟨header0, rest⟩
  · rw [hl] at h
    exact absurd h (by simp)
  rw [hl] at h
  dsimp only at h
  by_cases hemp : (rest.takeWhile (fun l =>
      fieldCount (detectDelim header0) l ==
        fieldCount (detectDelim header0) header0)).isEmpty = true
  · rw [if_pos hemp] at h
    exact absurd h (by simp)
  · rw [if_neg hemp] at h
    have hinj := Except.ok.inj h
    have hh : header0 = header := congrArg Prod.fst hinj
    subst hh
    have hr : rest.takeWhile (fun l =>
        fieldCount (detectDelim header0) l ==
          fieldCount (detectDelim header0) header0) = rows :=
      congrArg Prod.snd hinj
    subst hr
    refine ⟨rest, rest.dropWhile (fun l =>
        fieldCount (detectDelim header0) l ==
          fieldCount (detectDelim header0) header0), rfl,
      (List.takeWhile_append_dropWhile _ rest).symm, ?_, ?_, ?_⟩
    · intro hnil
      rw [hnil] at hemp
      simp at hemp
    · intro l hlmem
      have hmem := mem_takeWhile_eq_true _ rest l hlmem
      simpa only [beq_iff_eq] using hmem
    · intro l ls hls
      have hfalse := dropWhile_cons_false _ rest l ls hls
      simpa only [beq_eq_false_iff_ne, ne_eq] using hfalse

/-- Witness for C5 on a table whose third line breaks the rectangular run and
whose fourth matches the header again: only the second line is accepted. -/
theorem claim_C5_witness :
    ∃ rest discarded : List Chars,
      wfoLines (("a,b\n1,2\nx\n3,4").toList) = ("a,b").toList :: rest ∧
      rest = [("1,2").toList] ++ discarded ∧
      [("1,2").toList] ≠ [] ∧
      (∀ l ∈ [("1,2").toList],
        fieldCount (detectDelim (("a,b").toList)) l =
          fieldCount (detectDelim (("a,b").toList)) (("a,b").toList)) ∧
      (∀ l ls, discarded = l :: ls →
        fieldCount (detectDelim (("a,b").toList)) l ≠
          fieldCount (detectDelim (("a,b").toList)) (("a,b").toList)) :=
  (claim_C5 (("a,b\n1,2\nx\n3,4").toList) (("a,b").toList) [("1,2").toList]
    (by rfl)).2.2.2

/-- Counterexample to claim C8 as stated: on the input `a,b`, `x`, `1,2` the
extractor fails with the no-data-rows error even though a later line (`1,2`)
does match the header's field count — the claim's reading of the failure
condition, that no subsequent line matches, is wrong. -/
theorem claim_C8_counterexample :
    parse_wfo_to_dataframe (("a,b\nx\n1,2").toList) = Except.error noDataMsg ∧
    (("1,2").toList) ∈ (wfoLines (("a,b\nx\n1,2").toList)).tail ∧
    fieldCount (detectDelim (("a,b").toList)) (("1,2").toList) =
      fieldCount (detectDelim (("a,b").toList)) (("a,b").toList) :=
  ⟨by rfl, by decide, by decide⟩

/-- Claim C8 as amended: the extractor fails with `EmptyInputError` exactly
when no non-blank line remains; it fails with `NoDataRowsError` exactly when a
header was recovered but the scan accepts no data row, i.e. there is no
subsequent line or the first subsequent non-blank line's field count differs
from the header's; otherwise it returns a table.  Failures carry no table. -/
theorem claim_C8_amended (text : Chars) :
    (parse_wfo_to_dataframe text = Except.error emptyMsg ↔ wfoLines text = []) ∧
    (parse_wfo_to_dataframe text = Except.error noDataMsg ↔
      ∃ header rest, wfoLines text = header :: rest ∧
        (rest = [] ∨ ∃ l ls, rest = l :: ls ∧
          fieldCount (detectDelim header) l ≠
            fieldCount (detectDelim header) header)) ∧
    ((∃ tbl, parse_wfo_to_dataframe text = Except.ok tbl) ↔
      ∃ header l ls, wfoLines text = header :: l :: ls ∧
        fieldCount (detectDelim header) l =
          fieldCount (detectDelim header) header) := by
  have hmsg : emptyMsg ≠ noDataMsg := by decide
  unfold parse_wfo_to_dataframe
  rcases hl : wfoLines text with _ | ⟨header, rest⟩
  · exact ⟨by simp, by simp [hmsg], by simp⟩
  · dsimp only
    by_cases hemp : (rest.takeWhile (fun l =>
        fieldCount (detectDelim header) l ==
          fieldCount (detectDelim header) header)).isEmpty = true
    · rw [if_pos hemp]
      refine ⟨⟨fun h => absurd (Except.error.inj h) hmsg.symm, fun h => by simp at h⟩,
        ⟨fun _ => ?_, fun _ => rfl⟩, ⟨fun ⟨tbl, htbl⟩ => by simp at htbl, ?_⟩⟩
      · refine ⟨header, rest, rfl, ?_⟩
        rcases rest with _ | ⟨l, ls⟩
        · exact Or.inl rfl
        · refine Or.inr ⟨l, ls, rfl, ?_⟩
          rw [List.takeWhile_cons] at hemp
          by_cases hpl : (fieldCount (detectDelim header) l ==
              fieldCount (detectDelim header) header) = true
          · rw [if_pos hpl] at hemp
            simp at hemp
          · simpa only [beq_eq_false_iff_ne, ne_eq]
              using Bool.eq_false_iff.mpr hpl
      · rintro ⟨header0, l, ls, hcons, heq⟩
        have hh : header = header0 := (List.cons.inj hcons).1
        have hr : rest = l :: ls := (List.cons.inj hcons).2
        subst hh
        rw [hr, List.takeWhile_cons, if_pos (by simp [heq])] at hemp
        simp at hemp
    · rw [if_neg hemp]
      refine ⟨by simp [hmsg.symm], ⟨fun h => by simp at h, ?_⟩,
        ⟨fun _ => ?_, fun _ => ⟨_, rfl⟩⟩⟩
      · rintro ⟨header0, rest0, hcons, hcase⟩
        have hh : header = header0 := (List.cons.inj hcons).1
        have hr : rest = rest0 := (List.cons.inj hcons).2
        subst hh
        subst hr
        rcases hcase with hnil | ⟨l, ls, hls, hne⟩
        · rw [hnil] at hemp
          simp at hemp
        · rw [hls, List.takeWhile_cons] at hemp
          by_cases hpl : (fieldCount (detectDelim header) l ==
              fieldCount (detectDelim header) header) = true
          · exact absurd (by simpa only [beq_iff_eq] using hpl) hne
          · rw [if_neg hpl] at hemp
            simp at hemp
      · rcases hrest : rest with _ | ⟨l, ls⟩
        · rw [hrest] at hemp
          simp at hemp
        · refine ⟨header, l, ls, rfl, ?_⟩
          rw [hrest, List.takeWhile_cons] at hemp
          by_cases hpl : (fieldCount (detectDelim header) l ==
              fieldCount (detectDelim header) header) = true
          · simpa only [beq_iff_eq] using hpl
          · rw [if_neg hpl] at hemp
            simp at hemp

/-- Witness for the amended C8 at two branches: whitespace-only input is the
empty-input failure, and a header whose first following line mismatches is the
no-data-rows failure. -/
theorem claim_C8_amended_witness :
    (parse_wfo_to_dataframe (("  \n ").toList) = Except.error emptyMsg ↔
      wfoLines (("  \n ").toList) = []) ∧
    (parse_wfo_to_dataframe (("a,b\nx\n1,2").toList) = Except.error noDataMsg ↔
      ∃ header rest, wfoLines (("a,b\nx\n1,2").toList) = header :: rest ∧
        (rest = [] ∨ ∃ l ls, rest = l :: ls ∧
          fieldCount (detectDelim header) l ≠
            fieldCount (detectDelim header) header)) :=
  ⟨(claim_C8_amended (("  \n ").toList)).1,
   (claim_C8_amended (("a,b\nx\n1,2").toList)).2.1⟩

lemma addToGroup_ne_nil (g : List (Chars × List Chars)) (key col : Chars) :
    addToGroup g key col ≠ [] := by
  cases g with
  | nil => simp [addToGroup]
  | cons x rest =>
    obtain ⟨k, cs⟩ := x
    unfold addToGroup
    by_cases hk : k = key
    · rw [if_pos hk]
      simp
    · rw [if_neg hk]
      simp

lemma lookupG_addToGroup (g : List (Chars × List Chars)) (key col q : Chars) :
    lookupG (addToGroup g key col) q =
      if q = key then lookupG g q ++ [col] else lookupG g q := by
  induction g with
  | nil =>
    by_cases hq : q = key
    · subst hq
      simp [addToGroup, lookupG]
    · have hq' : ¬(key = q) := fun h => hq h.symm
      simp [addToGroup, lookupG, hq, hq']
  | cons x rest ih =>
    obtain ⟨k, cs⟩ := x
    unfold addToGroup
    by_cases hk : k = key
    · rw [if_pos hk]
      by_cases hq : q = key
      · have hkq : k = q := hk.trans hq.symm
        simp [lookupG, hkq, hq]
      · have hkq : ¬(k = q) := fun h => hq (h.symm.trans hk)
        simp [lookupG, hkq, hq]
    · rw [if_neg hk]
      by_cases hkq : k = q
      · have hq : ¬(q = key) := fun h => hk (hkq.trans h)
        simp [lookupG, hkq, hq]
      · simp only [lookupG, if_neg hkq, ih]

lemma keys_addToGroup (g : List (Chars × List Chars)) (key col : Chars) :
    (addToGroup g key col).map Prod.fst =
      if key ∈ g.map Prod.fst then g.map Prod.fst
      else g.map Prod.fst ++ [key] := by
  induction g with
  | nil => simp [addToGroup]
  | cons x rest ih =>
    obtain ⟨k, cs⟩ := x
    unfold addToGroup
    by_cases hk : k = key
    · rw [if_pos hk]
      simp [hk]
    · rw [if_neg hk]
      have hne : ¬(key = k) := fun h => hk h.symm
      by_cases hmem : key ∈ rest.map Prod.fst
      · simp [lookupG, hmem, hne, ih]
      · simp [lookupG, hmem, hne, ih]

lemma nodup_keys_addToGroup (g : List (Chars × List Chars)) (key col : Chars)
    (h : (g.map Prod.fst).Nodup) :
    ((addToGroup g key col).map Prod.fst).Nodup := by
  rw [keys_addToGroup]
  by_cases hmem : key ∈ g.map Prod.fst
  · rwa [if_pos hmem]
  · rw [if_neg hmem, ← List.concat_eq_append]
    exact List.Nodup.concat hmem h

lemma nodup_keys_buildGroupsAux (cols : List Col) :
    ∀ acc : List (Chars × List Chars), (acc.map Prod.fst).Nodup →
      ((buildGroupsAux acc cols).map Prod.fst).Nodup := by
  induction cols with
  | nil => exact fun acc h => h
  | cons c rest ih =>
    intro acc h
    unfold buildGroupsAux
    by_cases hq : colQualifies c = true
    · rw [if_pos hq]
      exact ih _ (nodup_keys_addToGroup acc _ _ h)
    · rw [if_neg hq]
      exact ih acc h

lemma lookupG_of_mem_nodup :
    ∀ g : List (Chars × List Chars), (g.map Prod.fst).Nodup →
      ∀ p cs, (p, cs) ∈ g → lookupG g p = cs := by
  intro g
  induction g with
  | nil => simp
  | cons x rest ih =>
    obtain ⟨k, cs0⟩ := x
    intro hnd p cs hmem
    rcases List.mem_cons.mp hmem with h | h
    · obtain ⟨h1, h2⟩ := Prod.mk.inj h.symm
      unfold lookupG
      rw [if_pos h1]
      exact h2
    · have hk : ¬(k = p) := by
        intro hkp
        subst hkp
        have : k ∈ rest.map Prod.fst :=
          List.mem_map.mpr ⟨(k, cs), h, rfl⟩
        exact (List.nodup_cons.mp (by simpa using hnd)).1 this
      unfold lookupG
      rw [if_neg hk]
      exact ih (List.nodup_cons.mp (by simpa using hnd)).2 p cs h

lemma lookupG_buildGroupsAux (cols : List Col) :
    ∀ (acc : List (Chars × List Chars)) (q : Chars),
      lookupG (buildGroupsAux acc cols) q =
        lookupG acc q ++
          ((cols.filter colQualifies).map Col.name).filter
            (fun n => (split_strategy_and_input n).1 = q) := by
  induction cols with
  | nil => simp [buildGroupsAux]
  | cons c rest ih =>
    intro acc q
    unfold buildGroupsAux
    by_cases hq : colQualifies c = true
    · rw [if_pos hq, ih, lookupG_addToGroup]
      rw [List.filter_cons_of_pos hq, List.map_cons]
      by_cases hkey : (split_strategy_and_input c.name).1 = q
      · rw [if_pos (Eq.symm hkey), List.filter_cons_of_pos (by simp [hkey])]
        simp
      · rw [if_neg (fun h => hkey h.symm),
          List.filter_cons_of_neg (by simp [hkey])]
    · rw [if_neg hq, ih, List.filter_cons_of_neg hq]

lemma selectBestAux_le (l : List (Chars × List Chars)) :
    ∀ best, best.2.length ≤ (selectBestAux best l).2.length ∧
      ∀ x ∈ l, x.2.length ≤ (selectBestAux best l).2.length := by
  induction l with
  | nil => simp [selectBestAux]
  | cons x xs ih =>
    intro best
    unfold selectBestAux
    by_cases hx : best.2.length < x.2.length
    · rw [if_pos hx]
      refine ⟨Nat.le_trans (Nat.le_of_lt hx) (ih x).1, ?_⟩
      intro y hy
      rcases List.mem_cons.mp hy with h | h
      · exact h ▸ (ih x).1
      · exact (ih x).2 y h
    · rw [if_neg hx]
      refine ⟨(ih best).1, ?_⟩
      intro y hy
      rcases List.mem_cons.mp hy with h | h
      · exact h ▸ Nat.le_trans (Nat.le_of_not_lt hx) (ih best).1
      · exact (ih best).2 y h

lemma selectBestAux_first (l : List (Chars × List Chars)) :
    ∀ best, ∃ l1 l2, best :: l = l1 ++ (selectBestAux best l) :: l2 ∧
      ∀ y ∈ l1, y.2.length < (selectBestAux best l).2.length := by
  induction l with
  | nil =>
    intro best
    exact ⟨[], [], rfl, by simp⟩
  | cons x xs ih =>
    intro best
    unfold selectBestAux
    by_cases hx : best.2.length < x.2.length
    · rw [if_pos hx]
      obtain ⟨l1, l2, hdecomp, hlt⟩ := ih x
      refine ⟨best :: l1, l2, by rw [List.cons_append, ← hdecomp], ?_⟩
      intro y hy
      rcases List.mem_cons.mp hy with h | h
      · exact h ▸ Nat.lt_of_lt_of_le hx (selectBestAux_le xs x).1
      · exact hlt y h
    · rw [if_neg hx]
      obtain ⟨l1, l2, hdecomp, hlt⟩ := ih best
      rcases l1 with _ | ⟨z, l1t⟩
      · have hbest : best = selectBestAux best xs := (List.cons.inj hdecomp).1
        refine ⟨[], x :: xs, ?_, by simp⟩
        rw [List.nil_append, ← hbest]
      · have hz : z = best := ((List.cons.inj hdecomp).1).symm
        subst hz
        have hxs : xs = l1t ++ selectBestAux z xs :: l2 :=
          (List.cons.inj hdecomp).2
        refine ⟨z :: x :: l1t, l2, ?_, ?_⟩
        · simp only [List.cons_append]
          rw [← hxs]
        intro y hy
        have hzlt : z.2.length < (selectBestAux z xs).2.length :=
          hlt z (List.mem_cons_self z l1t)
        rcases List.mem_cons.mp hy with h | h
        · exact h ▸ hzlt
        · rcases List.mem_cons.mp h with h2 | h2
          · exact h2 ▸ Nat.lt_of_le_of_lt (Nat.le_of_not_lt hx) hzlt
          · exact hlt y (List.mem_cons_of_mem z h2)

lemma buildGroupsAux_eq_nil (cols : List Col) :
    ∀ acc : List (Chars × List Chars),
      (buildGroupsAux acc cols = [] ↔
        acc = [] ∧ ∀ c ∈ cols, colQualifies c = false) := by
  induction cols with
  | nil => simp [buildGroupsAux]
  | cons c rest ih =>
    intro acc
    unfold buildGroupsAux
    by_cases hq : colQualifies c = true
    · rw [if_pos hq, ih]
      constructor
      · rintro ⟨habs, -⟩
        exact absurd habs (addToGroup_ne_nil acc _ _)
      · rintro ⟨-, hall⟩
        exact absurd hq (by simp [hall c (List.mem_cons_self c rest)])
    · rw [if_neg hq, ih]
      constructor
      · rintro ⟨hacc, hall⟩
        refine ⟨hacc, ?_⟩
        intro d hd
        rcases List.mem_cons.mp hd with h | h
        · exact h ▸ Bool.eq_false_iff.mpr hq
        · exact hall d h
      · rintro ⟨hacc, hall⟩
        exact ⟨hacc, fun d hd => hall d (List.mem_cons_of_mem c hd)⟩

/-- Claim C6: the Strategy Column Grouper fails with the no-strategy-columns
error exactly when no column qualifies; on success the selected pair `(p, g)`
satisfies: `g` is exactly the qualifying columns whose last-whitespace-run
strategy name is `p`, in header order; no group is larger than `g`; and every
group encountered before `g` is strictly smaller (ties break to the
first-encountered strategy name).  On the design notes' example the
two-column `Smc1` group beats the one-column `Smc2` group. -/
theorem claim_C6 (cols : List Col) :
    (selectStrategy cols = Except.error noStrategyMsg ↔
      ∀ c ∈ cols, colQualifies c = false) ∧
    (∀ p g, selectStrategy cols = Except.ok (p, g) →
      g = ((cols.filter colQualifies).map Col.name).filter
          (fun n => (split_strategy_and_input n).1 = p) ∧
      (∀ q h, (q, h) ∈ buildGroups cols → h.length ≤ g.length) ∧
      ∃ l1 l2, buildGroups cols = l1 ++ (p, g) :: l2 ∧
        ∀ y ∈ l1, y.2.length < g.length) ∧
    selectStrategy exampleCols =
      Except.ok (("Smc1").toList,
        [("Smc1 Len").toList, ("Smc1 Stop").toList]) := by
  refine ⟨?_, ?_, by rfl⟩
  · unfold selectStrategy
    rcases hg : buildGroups cols with _ | ⟨x, xs⟩
    · simp only [selectBest]
      exact ⟨fun _ => ((buildGroupsAux_eq_nil cols []).mp hg).2,
        fun _ => by trivial⟩
    · simp only [selectBest]
      constructor
      · intro habs
        simp at habs
      · intro hall
        have hnil : buildGroups cols = [] :=
          (buildGroupsAux_eq_nil cols []).mpr ⟨rfl, hall⟩
        rw [hg] at hnil
        simp at hnil
  · intro p g hok
    unfold selectStrategy at hok
    rcases hg : buildGroups cols with _ | ⟨x, xs⟩
    · rw [hg] at hok
      simp [selectBest] at hok
    · rw [hg] at hok
      simp only [selectBest] at hok
      have hbest : selectBestAux x xs = (p, g) := Except.ok.inj hok
      obtain ⟨l1, l2, hdecomp, hlt⟩ := selectBestAux_first xs x
      rw [hbest] at hdecomp hlt
      have hmem : (p, g) ∈ buildGroups cols := by
        rw [hg, hdecomp]
        exact List.mem_append.mpr (Or.inr (List.mem_cons_self _ l2))
      have hnd : ((buildGroups cols).map Prod.fst).Nodup :=
        nodup_keys_buildGroupsAux cols [] (by simp)
      have hlook : lookupG (buildGroups cols) p = g :=
        lookupG_of_mem_nodup (buildGroups cols) hnd p g hmem
      refine ⟨?_, ?_, ?_⟩
      · rw [← hlook]
        have hchar := lookupG_buildGroupsAux cols [] p
        simpa [buildGroups, lookupG] using hchar
      · intro q h hqh
        rcases List.mem_cons.mp hqh with hcase | hcase
        · have hh2 : h = x.2 := congrArg Prod.snd hcase
          rw [hh2]
          have hle := (selectBestAux_le xs x).1
          rw [hbest] at hle
          exact hle
        · have hle := (selectBestAux_le xs x).2 _ hcase
          rw [hbest] at hle
          exact hle
      · exact ⟨l1, l2, hdecomp, hlt⟩

/-- Witness for C6: on the example columns, the selected group `Smc1` is
exactly the qualifying columns whose strategy name is `Smc1`. -/
theorem claim_C6_witness :
    [("Smc1 Len").toList, ("Smc1 Stop").toList] =
      ((exampleCols.filter colQualifies).map Col.name).filter
        (fun n => (split_strategy_and_input n).1 = ("Smc1").toList) :=
  ((claim_C6 exampleCols).2.1 (("Smc1").toList)
    [("Smc1 Len").toList, ("Smc1 Stop").toList] (by rfl)).1

/-- Claim C9: a requested order outside the documented selector set — any
string other than `auto`, `ymd` and `mdy` — raises no selector-validation
error: the Date Series Parser behaves exactly as the day-month-year branch
and returns the requested string unchanged as the resolved order. -/
theorem claim_C9 (tokens : List Chars) (fmt : String)
    (h1 : fmt ≠ "auto") (h2 : fmt ≠ "ymd") (h3 : fmt ≠ "mdy") :
    parse_date_series tokens fmt =
      (parse_date_series tokens "dmy").map (fun r => (r.1, fmt)) := by
  have hdisp : parseTokenAs fmt = parseTokenAs "dmy" := by
    funext t
    unfold parseTokenAs
    rw [if_neg h2, if_neg h3,
      if_neg (show ¬(("dmy" : String) = "ymd") by decide),
      if_neg (show ¬(("dmy" : String) = "mdy") by decide)]
  unfold parse_date_series
  simp only [if_neg h1, if_neg (show ¬(("dmy" : String) = "auto") by decide),
    hdisp]
  cases hr : tokens.mapM pyFirstWord with
  | none => rfl
  | some raw =>
    simp only [Option.some_bind]
    cases hm : (raw.map _normalize_date_token).mapM (parseTokenAs "dmy") with
    | none => rfl
    | some ds => rfl

/-- Witness for C9: the undocumented selector `xyz` parses a day-first token
and is returned unchanged as the resolved order. -/
theorem claim_C9_witness :
    parse_date_series [("05/03/2024").toList] "xyz" =
      some ([⟨2024, 3, 5⟩], "xyz") := by
  rw [claim_C9 [("05/03/2024").toList] "xyz" (by decide) (by decide) (by decide)]
  rfl

end WfoParser
